import Mathlib

/-!
# Verification of the 5D-chess move-generation core

Shallow embedding of `src/lib/prelude/gen/board.rs` and
`src/lib/prelude/gen/cache.rs` (the sampled source of the repository),
together with proofs of the frozen claims about them.

Conventions:
* Rust `Option<T>` becomes `Option T`; a Rust iterator over `Move` is
  represented by the list of moves it has yet to yield (all sequences in
  this core are finite, per the spec).
* The piece-level generator (`PiecePosition::generate_moves` /
  `validate_move`, file `piece.rs`) is not part of the sampled source; it is
  modelled from the spec as an abstract environment `Env` which also folds in
  the `(game, partial game overlay)` pair, both opaque to the sampled code.
* `BoardIter::next` is literally self-recursive in the source ("TCR ftw :)"),
  so its embedding `BoardIter.nextD` carries an explicit fuel counting the
  recursion depth; `none` means the depth budget was exhausted.
-/

namespace Chess5d

/-- A piece: kind + color (`white : Bool`), as in the data model of the spec.
The kind is opaque to the sampled code; a `Nat` keeps pieces distinguishable. -/
structure Piece where
  kind : Nat
  white : Bool
deriving DecidableEq, Repr

/-- A coordinate `(l, t, x, y)`: timeline, turn, file, rank.
Timeline and turn may be negative. -/
structure Coords where
  l : Int
  t : Int
  x : Nat
  y : Nat
deriving DecidableEq, Repr

/-- A move: source piece and coordinate (Rust `mv.from : (Piece, Coords)`),
and a destination coordinate. Capture metadata is irrelevant to the sampled
code, which only compares moves for equality and reads `mv.from`. -/
structure Move where
  fromPiece : Piece
  fromCoords : Coords
  toCoords : Coords
deriving DecidableEq, Repr

/-- A board: timeline `l`, turn `t`, dimensions, the row-major grid of
optional pieces (`pieces[x + y*width]`), and the board's active color
(Rust `Board::white()`). A well-formed board has
`pieces.length = width * height`. -/
structure Board where
  l : Int
  t : Int
  width : Nat
  height : Nat
  pieces : List (Option Piece)
  whiteActive : Bool
deriving DecidableEq, Repr

/-- Modelled from the spec: the Piece Move Generator (`piece.rs`, not in the
sampled source). `pieceGen p c` is `PiecePosition::new(p, c).generate_moves
(game, partial_game)`: `none` models the "no sequence" (stale reference)
case, `some l` the finite lazy sequence of candidate moves. `pieceValidate`
is the piece-level `validate_move`. The `(game, partial game overlay)` pair,
opaque to the sampled code, is folded into this environment. -/
structure Env where
  pieceGen : Piece → Coords → Option (List Move)
  pieceValidate : Piece → Coords → Move → Bool

/-- The piece generator never reports a stale reference: per the spec it
returns "no sequence" only "if the piece no longer occupies the given square
in the overlay", which does not happen while iterating the very board the
overlay agrees with. -/
def EnvFresh (env : Env) : Prop :=
  ∀ p c, (env.pieceGen p c).isSome

/-- Modelled from the spec: moves produced by the Piece Move Generator "for
one piece at one coordinate" originate from that piece and coordinate
(a move is "a source coordinate + piece"). -/
def EnvWF (env : Env) : Prop :=
  ∀ p c l, env.pieceGen p c = some l → ∀ m ∈ l, m.fromPiece = p ∧ m.fromCoords = c

/-- Modelled from the spec: `Board::get((x, y))`, the bounds-checked read of
the optional piece at file `x`, rank `y` (not in the sampled source; the
sampled code indexes `pieces[i]` with `i = x + y*width`). -/
def Board.get (b : Board) (xy : Nat × Nat) : Option Piece :=
  if xy.1 < b.width ∧ xy.2 < b.height then
    b.pieces.getD (xy.2 * b.width + xy.1) none
  else
    none

/-- `ownAt b i`: square `i` holds a piece of the board's active color.
This is the negation of the scan-loop guard in `BoardIter::next`
(`pieces[i].map(|p| p.white != board.white()).unwrap_or(true)`). -/
def ownAt (b : Board) (i : Nat) : Bool :=
  match b.pieces.getD i none with
  | some p => p.white == b.whiteActive
  | none => false

/-- The coordinate of square index `i` on board `b`:
`Coords::new(b.l, b.t, i % width, i / width)`. -/
def coordsAt (b : Board) (i : Nat) : Coords :=
  { l := b.l, t := b.t, x := i % b.width, y := i / b.width }

/-- The Piece Move Generator sequence started at square `i` of `b`:
`PiecePosition::new(pieces[i].piece().unwrap(), coordsAt b i)
.generate_moves(game, partial_game)`. The `none` fallback stands for the
`unwrap` panic branch; it is proved unreachable at every call site
(the scan loop only stops on own-piece squares). -/
def pieceGenAt (b : Board) (env : Env) (i : Nat) : Option (List Move) :=
  match b.pieces.getD i none with
  | some p => env.pieceGen p (coordsAt b i)
  | none => none

/-! ## The move cache decorator (`cache.rs`) -/

/-- `CacheMoves` (`cache.rs`): a wrapper around a `GenMoves` iterator plus the
ordered cache of the moves it has yielded so far. The iterator state type `σ`
is generic, as in the Rust code; the operational functions below work on
`σ = List Move`, the remaining output of the (finite) underlying iterator. -/
structure CacheMoves (σ : Type) where
  iterator : σ
  cache : List Move
deriving DecidableEq, Repr

/-- `CacheMoves::new`: succeeds exactly when `generator.generate_moves(game,
partial_game)` returned a sequence, and starts with an empty cache. -/
def CacheMoves.new {σ : Type} (o : Option σ) : Option (CacheMoves σ) :=
  match o with
  | some it => some { iterator := it, cache := [] }
  | none => none

/-- `<CacheMoves as Iterator>::next`: pull from the wrapped iterator; on
`Some(m)`, push `m` onto the cache and return it. -/
def CacheMoves.next (c : CacheMoves (List Move)) : Option Move × CacheMoves (List Move) :=
  match c.iterator with
  | m :: rest => (some m, { iterator := rest, cache := c.cache ++ [m] })
  | [] => (none, c)

/-- The `for cached_mv in self.cache.iter()` loop of `validate_move_cached`. -/
def CacheMoves.cacheScan (mv : Move) : List Move → Bool
  | [] => false
  | m :: rest => if m = mv then true else CacheMoves.cacheScan mv rest

/-- `CacheMoves::validate_move_cached`: scan the cache only; the iterator is
not consulted (the function does not even receive the iterator's state). -/
def CacheMoves.validate_move_cached (c : CacheMoves (List Move)) (mv : Move) : Bool :=
  CacheMoves.cacheScan mv c.cache

/-- The `while let Some(m) = self.next()` loop of `validate_move`: drain the
iterator, caching every drained move, until `mv` is found or it is
exhausted. Arguments are the iterator and cache components of the state. -/
def CacheMoves.drainLoop (mv : Move) : List Move → List Move → Bool × CacheMoves (List Move)
  | [], cache => (false, { iterator := [], cache := cache })
  | m :: rest, cache =>
    if m = mv then (true, { iterator := rest, cache := cache ++ [m] })
    else CacheMoves.drainLoop mv rest (cache ++ [m])

/-- `CacheMoves::validate_move`: check the cache first, then drain. -/
def CacheMoves.validate_move (c : CacheMoves (List Move)) (mv : Move) :
    Bool × CacheMoves (List Move) :=
  if c.validate_move_cached mv then (true, c)
  else CacheMoves.drainLoop mv c.iterator c.cache

/-- `CacheMoves::get_cached`: `if n < cache.len() { Some(cache[n]) } else
{ None }`; the iterator is not consulted. -/
def CacheMoves.get_cached (c : CacheMoves (List Move)) (n : Nat) : Option Move :=
  if h : n < c.cache.length then some (c.cache.get ⟨n, h⟩) else none

/-- The `while let Some(m) = self.next()` loop of `get`: drain until the
cache length reaches `n + 1` (the guard `self.cache.len() == n + 1` is
checked after the push, so here on `cache.length + 1`). -/
def CacheMoves.getLoop (n : Nat) : List Move → List Move → Option Move × CacheMoves (List Move)
  | [], cache => (none, { iterator := [], cache := cache })
  | m :: rest, cache =>
    if cache.length + 1 = n + 1 then (some m, { iterator := rest, cache := cache ++ [m] })
    else CacheMoves.getLoop n rest (cache ++ [m])

/-- `CacheMoves::get`: answer from the cache when possible, else drain. -/
def CacheMoves.get (c : CacheMoves (List Move)) (n : Nat) :
    Option Move × CacheMoves (List Move) :=
  if h : n < c.cache.length then (some (c.cache.get ⟨n, h⟩), c)
  else CacheMoves.getLoop n c.iterator c.cache

/-- One state-changing operation on a `CacheMoves` decorator. -/
inductive CacheOp where
  | step : CacheOp
  | validate : Move → CacheOp
  | getAt : Nat → CacheOp
deriving DecidableEq, Repr

/-- The state after one operation. -/
def applyOp (c : CacheMoves (List Move)) : CacheOp → CacheMoves (List Move)
  | CacheOp.step => (c.next).2
  | CacheOp.validate mv => (c.validate_move mv).2
  | CacheOp.getAt n => (c.get n).2

/-- The state after a sequence of operations. -/
def applyOps (c : CacheMoves (List Move)) : List CacheOp → CacheMoves (List Move)
  | [] => c
  | op :: rest => applyOps (applyOp c op) rest

/-! ## The board move generator (`board.rs`) -/

/-- The mutable state of `BoardIter`: the scan index and the current
per-piece iterator (`Option<PieceMoveIter>`, represented by its remaining
output). The `board`, `game` and `partial_game` fields are immutable borrows
and are passed as context instead. -/
structure BoardIter where
  index : Nat
  current_piece : Option (List Move)
deriving DecidableEq, Repr

/-- The square-skipping `while` loop of `BoardIter::next`: advance `index`
while it is in bounds and the square is empty or holds an opposite-color
piece. The structural fuel is exactly the number of remaining squares, so
the wrapper `scanSkip` below computes the loop's result. -/
def scanSkipAux (b : Board) : Nat → Nat → Nat
  | 0, i => i
  | n + 1, i =>
    if i < b.width * b.height ∧ ownAt b i = false then scanSkipAux b n (i + 1) else i

/-- The first index `j ≥ i` that is out of bounds or holds an own-color
piece: the value of `index` after the skip loop of `BoardIter::next`. -/
def scanSkip (b : Board) (i : Nat) : Nat :=
  scanSkipAux b (b.width * b.height - i) i

/-- Auxiliary, structural in the number of remaining squares: the number of
own-color squares at indices `≥ i`. -/
def countOwnFromAux (b : Board) : Nat → Nat → Nat
  | 0, _ => 0
  | n + 1, i =>
    if i < b.width * b.height then
      (if ownAt b i then 1 else 0) + countOwnFromAux b n (i + 1)
    else 0

/-- The number of own-color squares of `b` with index `≥ i`. -/
def countOwnFrom (b : Board) (i : Nat) : Nat :=
  countOwnFromAux b (b.width * b.height - i) i

/-- Auxiliary, structural in the number of remaining squares: the
concatenation, over squares `j ≥ i` in increasing order, of the piece
generator outputs of the own-color squares. -/
def streamFromAux (b : Board) (env : Env) : Nat → Nat → List Move
  | 0, _ => []
  | n + 1, i =>
    if i < b.width * b.height then
      (if ownAt b i then (pieceGenAt b env i).getD [] else []) ++
        streamFromAux b env n (i + 1)
    else []

/-- The moves the board generator still has to produce when scanning from
square `i` with no per-piece iterator in flight. -/
def streamFrom (b : Board) (env : Env) (i : Nat) : List Move :=
  streamFromAux b env (b.width * b.height - i) i

/-- `BoardIter::next` (`board.rs` lines 14-68), with an explicit fuel for
its self-recursion (`self.next()` at the end of the body, comment
"TCR ftw :)"): each recursive call consumes one unit, `none` means the
recursion-depth budget ran out. The two in-bounds branches install the new
per-piece iterator `pieceGenAt` exactly as the `new_iter` block does; the
out-of-bounds branches leave `current_piece` as the source does. -/
def BoardIter.nextD (b : Board) (env : Env) : Nat → BoardIter → Option (Option Move × BoardIter)
  | 0, _ => none
  | fuel + 1, st =>
    if st.index ≥ b.width * b.height then
      some (none, st)
    else
      match st.current_piece with
      | none =>
        let i := scanSkip b st.index
        if i < b.width * b.height then
          BoardIter.nextD b env fuel { index := i, current_piece := pieceGenAt b env i }
        else
          BoardIter.nextD b env fuel { index := i, current_piece := none }
      | some [] =>
        let i := scanSkip b (st.index + 1)
        if i < b.width * b.height then
          BoardIter.nextD b env fuel { index := i, current_piece := pieceGenAt b env i }
        else
          BoardIter.nextD b env fuel { index := i, current_piece := some [] }
      | some (m :: rest) =>
        some (some m, { index := st.index, current_piece := some rest })

/-- A recursion-depth budget sufficient for one `next` call from state `st`:
twice the number of own-color squares not yet passed, plus a constant.
It does not depend on the board's area or on how many squares are empty. -/
def fuelB (b : Board) (st : BoardIter) : Nat :=
  2 * countOwnFrom b st.index + (match st.current_piece with | some _ => 1 | none => 2)

/-- One call to `BoardIter::next`, run with the sufficient depth budget. -/
def BoardIter.next (b : Board) (env : Env) (st : BoardIter) : Option Move × BoardIter :=
  (BoardIter.nextD b env (fuelB b st) st).getD (none, st)

/-- Drive the iterator for at most `n` yields, collecting the moves. -/
def runFrom (b : Board) (env : Env) : Nat → BoardIter → List Move
  | 0, _ => []
  | n + 1, st =>
    match BoardIter.next b env st with
    | (some m, st') => m :: runFrom b env n st'
    | (none, _) => []

/-- `Board::generate_moves`: always returns `Some` of the fresh iterator
state `index = 0, current_piece = None`. -/
def Board.generate_moves (_b : Board) (_env : Env) : Option BoardIter :=
  some { index := 0, current_piece := none }

/-- The complete output of the board move generator: the fresh iterator
driven to exhaustion (`(streamFrom b env 0).length` yields suffice). -/
def boardMoves (b : Board) (env : Env) : List Move :=
  runFrom b env (streamFrom b env 0).length { index := 0, current_piece := none }

/-- `Board::validate_move` (`board.rs` lines 89-98): reject a timeline or
turn mismatch, reject an empty source square, otherwise delegate to the
piece-level `validate_move` of the piece occupying the source square
(the `none` case of the match is the `is_empty` branch, the `some` case the
`piece().unwrap()` delegation). -/
def Board.validate_move (b : Board) (env : Env) (mv : Move) : Bool :=
  if b.l ≠ mv.fromCoords.l ∨ b.t ≠ mv.fromCoords.t then false
  else
    match b.get (mv.fromCoords.x, mv.fromCoords.y) with
    | none => false
    | some p => env.pieceValidate p mv.fromCoords mv

/-- The moves a state still has to produce: the rest of the current piece's
sequence, then the own-color squares strictly after `index` (a fresh state
scans from `index` itself). -/
def stateStream (b : Board) (env : Env) (st : BoardIter) : List Move :=
  match st.current_piece with
  | none => streamFrom b env st.index
  | some l => l ++ streamFrom b env (st.index + 1)

/-- The reachable-state invariant of `BoardIter`: a per-piece iterator is
only in flight while `index` is in bounds on an own-color square. -/
def BoardIter.Inv (b : Board) (st : BoardIter) : Prop :=
  ∀ l, st.current_piece = some l → st.index < b.width * b.height ∧ ownAt b st.index = true

/-! ## Lemmas about the cache decorator -/

theorem cacheScan_iff (mv : Move) (l : List Move) :
    CacheMoves.cacheScan mv l = true ↔ mv ∈ l := by
  induction l with
  | nil => simp [CacheMoves.cacheScan]
  | cons m rest ih =>
    simp only [CacheMoves.cacheScan, List.mem_cons]
    by_cases h : m = mv
    · simp [h]
    · simp only [if_neg h, ih]
      constructor
      · exact Or.inr
      · rintro (rfl | hm)
        · exact absurd rfl h
        · exact hm

theorem validate_move_cached_iff (c : CacheMoves (List Move)) (mv : Move) :
    c.validate_move_cached mv = true ↔ mv ∈ c.cache := by
  simp [CacheMoves.validate_move_cached, cacheScan_iff]

theorem drainLoop_fst (mv : Move) (it cache : List Move) :
    (CacheMoves.drainLoop mv it cache).1 = true ↔ mv ∈ it := by
  induction it generalizing cache with
  | nil => simp [CacheMoves.drainLoop]
  | cons m rest ih =>
    simp only [CacheMoves.drainLoop, List.mem_cons]
    by_cases h : m = mv
    · simp [h]
    · simp only [if_neg h, ih]
      constructor
      · exact Or.inr
      · rintro (rfl | hm)
        · exact absurd rfl h
        · exact hm

theorem drainLoop_full (mv : Move) (it cache : List Move) :
    (CacheMoves.drainLoop mv it cache).2.cache ++ (CacheMoves.drainLoop mv it cache).2.iterator
      = cache ++ it := by
  induction it generalizing cache with
  | nil => simp [CacheMoves.drainLoop]
  | cons m rest ih =>
    simp only [CacheMoves.drainLoop]
    by_cases h : m = mv
    · simp [h]
    · rw [if_neg h, ih]
      simp

theorem drainLoop_shift (mv : Move) (it cache : List Move) :
    ∃ j, (CacheMoves.drainLoop mv it cache).2.cache = cache ++ it.take j ∧
      (CacheMoves.drainLoop mv it cache).2.iterator = it.drop j := by
  induction it generalizing cache with
  | nil => exact ⟨0, by simp [CacheMoves.drainLoop]⟩
  | cons m rest ih =>
    by_cases h : m = mv
    · exact ⟨1, by simp [CacheMoves.drainLoop, h]⟩
    · obtain ⟨j, h1, h2⟩ := ih (cache ++ [m])
      refine ⟨j + 1, ?_, ?_⟩
      · simp only [CacheMoves.drainLoop, if_neg h, List.take_succ_cons]
        rw [h1]
        simp
      · simp only [CacheMoves.drainLoop, if_neg h, List.drop_succ_cons]
        exact h2

theorem next_shift (c : CacheMoves (List Move)) :
    ∃ j, ((c.next).2).cache = c.cache ++ c.iterator.take j ∧
      ((c.next).2).iterator = c.iterator.drop j := by
  cases h : c.iterator with
  | nil => exact ⟨0, by simp [CacheMoves.next, h]⟩
  | cons m rest => exact ⟨1, by simp [CacheMoves.next, h]⟩

theorem getLoop_shift (n : Nat) (it cache : List Move) :
    ∃ j, (CacheMoves.getLoop n it cache).2.cache = cache ++ it.take j ∧
      (CacheMoves.getLoop n it cache).2.iterator = it.drop j := by
  induction it generalizing cache with
  | nil => exact ⟨0, by simp [CacheMoves.getLoop]⟩
  | cons m rest ih =>
    by_cases h : cache.length + 1 = n + 1
    · exact ⟨1, by simp [CacheMoves.getLoop, h]⟩
    · obtain ⟨j, h1, h2⟩ := ih (cache ++ [m])
      refine ⟨j + 1, ?_, ?_⟩
      · simp only [CacheMoves.getLoop, if_neg h, List.take_succ_cons]
        rw [h1]
        simp
      · simp only [CacheMoves.getLoop, if_neg h, List.drop_succ_cons]
        exact h2

theorem applyOp_shift (c : CacheMoves (List Move)) (op : CacheOp) :
    ∃ j, (applyOp c op).cache = c.cache ++ c.iterator.take j ∧
      (applyOp c op).iterator = c.iterator.drop j := by
  cases op with
  | step => exact next_shift c
  | validate mv =>
    simp only [applyOp, CacheMoves.validate_move]
    by_cases h : c.validate_move_cached mv
    · exact ⟨0, by simp [h]⟩
    · simpa [h] using drainLoop_shift mv c.iterator c.cache
  | getAt n =>
    simp only [applyOp, CacheMoves.get]
    by_cases h : n < c.cache.length
    · exact ⟨0, by simp [h]⟩
    · simpa [h] using getLoop_shift n c.iterator c.cache

theorem take_length_min {α : Type} (l : List α) (j : Nat) :
    l.take (min j l.length) = l.take j := by
  rcases Nat.le_total j l.length with h | h
  · rw [Nat.min_eq_left h]
  · rw [Nat.min_eq_right h, List.take_length, List.take_of_length_le h]

theorem drop_length_min {α : Type} (l : List α) (j : Nat) :
    l.drop (min j l.length) = l.drop j := by
  rcases Nat.le_total j l.length with h | h
  · rw [Nat.min_eq_left h]
  · rw [Nat.min_eq_right h, List.drop_length, List.drop_of_length_le h]

theorem applyOps_shift (ops : List CacheOp) (c : CacheMoves (List Move)) :
    ∃ j, (applyOps c ops).cache = c.cache ++ c.iterator.take j ∧
      (applyOps c ops).iterator = c.iterator.drop j := by
  induction ops generalizing c with
  | nil => exact ⟨0, by simp [applyOps]⟩
  | cons op rest ih =>
    obtain ⟨j1, h1, h2⟩ := applyOp_shift c op
    obtain ⟨j2, g1, g2⟩ := ih (applyOp c op)
    refine ⟨j1 + j2, ?_, ?_⟩
    · rw [applyOps, g1, h1, h2, List.append_assoc, List.take_add]
    · rw [applyOps, g2, h2, List.drop_drop]

/-- After any operation sequence on a fresh decorator over `seq`, the cache
is the prefix of `seq` of its own length and the iterator the matching
suffix. -/
theorem applyOps_take_drop (seq : List Move) (ops : List CacheOp) :
    (applyOps { iterator := seq, cache := [] } ops).cache
        = seq.take (applyOps { iterator := seq, cache := [] } ops).cache.length ∧
      (applyOps { iterator := seq, cache := [] } ops).iterator
        = seq.drop (applyOps { iterator := seq, cache := [] } ops).cache.length := by
  obtain ⟨j, h1, h2⟩ := applyOps_shift ops { iterator := seq, cache := [] }
  simp only [List.nil_append] at h1
  constructor
  · rw [h1]
    rw [List.length_take, take_length_min]
  · rw [h1, h2]
    rw [List.length_take, drop_length_min]

theorem getLoop_fst (n : Nat) (it cache : List Move) (h : cache.length ≤ n) :
    (CacheMoves.getLoop n it cache).1 = (cache ++ it)[n]? := by
  induction it generalizing cache with
  | nil =>
    simp only [CacheMoves.getLoop, List.append_nil]
    rw [List.getElem?_eq_none h]
  | cons m rest ih =>
    by_cases hc : cache.length + 1 = n + 1
    · have hn : n = cache.length := by omega
      subst hn
      simp only [CacheMoves.getLoop, if_pos hc]
      rw [List.getElem?_append_right (Nat.le_refl _)]
      simp
    · have h' : cache.length + 1 ≤ n := by omega
      simp only [CacheMoves.getLoop, if_neg hc]
      rw [ih (cache ++ [m]) (by simpa using h')]
      simp [List.append_assoc]

theorem get_fst (c : CacheMoves (List Move)) (n : Nat) :
    (c.get n).1 = (c.cache ++ c.iterator)[n]? := by
  simp only [CacheMoves.get]
  by_cases h : n < c.cache.length
  · rw [dif_pos h, List.getElem?_append_left h]
    simp
  · rw [dif_neg h]
    exact getLoop_fst n c.iterator c.cache (Nat.le_of_not_lt h)

theorem get_cached_fst (c : CacheMoves (List Move)) (n : Nat) :
    c.get_cached n = c.cache[n]? := by
  simp only [CacheMoves.get_cached]
  by_cases h : n < c.cache.length
  · rw [dif_pos h]
    simp
  · rw [dif_neg h, List.getElem?_eq_none (Nat.le_of_not_lt h)]

theorem validate_move_fst (c : CacheMoves (List Move)) (mv : Move) :
    (c.validate_move mv).1 = true ↔ mv ∈ c.cache ++ c.iterator := by
  simp only [CacheMoves.validate_move]
  by_cases h : c.validate_move_cached mv
  · have hm := (validate_move_cached_iff c mv).1 h
    simp [h, List.mem_append, hm]
  · have hm : mv ∉ c.cache := fun hmem => h ((validate_move_cached_iff c mv).2 hmem)
    rw [if_neg h]
    rw [drainLoop_fst]
    simp [List.mem_append, hm]

theorem validate_move_full (c : CacheMoves (List Move)) (mv : Move) :
    (c.validate_move mv).2.cache ++ (c.validate_move mv).2.iterator
      = c.cache ++ c.iterator := by
  simp only [CacheMoves.validate_move]
  by_cases h : c.validate_move_cached mv
  · simp [h]
  · simp [h, drainLoop_full]

/-! ## Lemmas about the board generator's scan loop and its derived counts -/

theorem scanSkipAux_ge (b : Board) : ∀ n i, i ≤ scanSkipAux b n i := by
  intro n
  induction n with
  | zero => intro i; simp [scanSkipAux]
  | succ n ih =>
    intro i
    simp only [scanSkipAux]
    split
    · exact Nat.le_trans (Nat.le_succ i) (ih (i + 1))
    · exact Nat.le_refl i

theorem scanSkip_ge (b : Board) (i : Nat) : i ≤ scanSkip b i :=
  scanSkipAux_ge b _ i

theorem scanSkipAux_own (b : Board) :
    ∀ n i, b.width * b.height - i ≤ n →
      scanSkipAux b n i < b.width * b.height → ownAt b (scanSkipAux b n i) = true := by
  intro n
  induction n with
  | zero =>
    intro i hn hlt
    simp only [scanSkipAux] at hlt
    omega
  | succ n ih =>
    intro i hn hlt
    simp only [scanSkipAux] at hlt ⊢
    split
    · next hcond =>
      rw [if_pos hcond] at hlt
      exact ih (i + 1) (by omega) hlt
    · next hcond =>
      rw [if_neg hcond] at hlt
      rcases Bool.eq_false_or_eq_true (ownAt b i) with h | h
      · exact h
      · exact absurd ⟨hlt, h⟩ hcond

theorem scanSkip_own (b : Board) (i : Nat)
    (hlt : scanSkip b i < b.width * b.height) : ownAt b (scanSkip b i) = true :=
  scanSkipAux_own b _ i (Nat.le_refl _) hlt

theorem countOwnFrom_oob (b : Board) (i : Nat) (h : ¬ i < b.width * b.height) :
    countOwnFrom b i = 0 := by
  have : b.width * b.height - i = 0 := by omega
  simp [countOwnFrom, this, countOwnFromAux]

theorem countOwnFrom_step (b : Board) (i : Nat) (h : i < b.width * b.height) :
    countOwnFrom b i = (if ownAt b i then 1 else 0) + countOwnFrom b (i + 1) := by
  have hn : b.width * b.height - i = (b.width * b.height - (i + 1)) + 1 := by omega
  rw [countOwnFrom, hn]
  simp [countOwnFromAux, h, countOwnFrom]

theorem streamFrom_oob (b : Board) (env : Env) (i : Nat) (h : ¬ i < b.width * b.height) :
    streamFrom b env i = [] := by
  have : b.width * b.height - i = 0 := by omega
  simp [streamFrom, this, streamFromAux]

theorem streamFrom_step (b : Board) (env : Env) (i : Nat) (h : i < b.width * b.height) :
    streamFrom b env i =
      (if ownAt b i then (pieceGenAt b env i).getD [] else []) ++ streamFrom b env (i + 1) := by
  have hn : b.width * b.height - i = (b.width * b.height - (i + 1)) + 1 := by omega
  rw [streamFrom, hn]
  simp [streamFromAux, h, streamFrom]

theorem countOwnFromAux_scanSkip (b : Board) :
    ∀ n i, b.width * b.height - i ≤ n →
      countOwnFrom b (scanSkipAux b n i) = countOwnFrom b i := by
  intro n
  induction n with
  | zero => intro i _; simp [scanSkipAux]
  | succ n ih =>
    intro i hn
    simp only [scanSkipAux]
    split
    · next hcond =>
      rw [ih (i + 1) (by omega)]
      rw [countOwnFrom_step b i hcond.1, hcond.2]
      simp
    · rfl

theorem countOwnFrom_scanSkip (b : Board) (i : Nat) :
    countOwnFrom b (scanSkip b i) = countOwnFrom b i :=
  countOwnFromAux_scanSkip b _ i (Nat.le_refl _)

theorem streamFromAux_scanSkip (b : Board) (env : Env) :
    ∀ n i, b.width * b.height - i ≤ n →
      streamFrom b env (scanSkipAux b n i) = streamFrom b env i := by
  intro n
  induction n with
  | zero => intro i _; simp [scanSkipAux]
  | succ n ih =>
    intro i hn
    simp only [scanSkipAux]
    split
    · next hcond =>
      rw [ih (i + 1) (by omega)]
      rw [streamFrom_step b env i hcond.1, hcond.2]
      simp
    · rfl

theorem streamFrom_scanSkip (b : Board) (env : Env) (i : Nat) :
    streamFrom b env (scanSkip b i) = streamFrom b env i :=
  streamFromAux_scanSkip b env _ i (Nat.le_refl _)

theorem countOwnFrom_succ_le (b : Board) (i : Nat) :
    countOwnFrom b (i + 1) ≤ countOwnFrom b i := by
  by_cases h : i < b.width * b.height
  · rw [countOwnFrom_step b i h]
    omega
  · rw [countOwnFrom_oob b i h, countOwnFrom_oob b (i + 1) (by omega)]

theorem countOwnFrom_antitone (b : Board) (i j : Nat) (h : i ≤ j) :
    countOwnFrom b j ≤ countOwnFrom b i := by
  induction j, h using Nat.le_induction with
  | base => exact Nat.le_refl _
  | succ j _ ih => exact Nat.le_trans (countOwnFrom_succ_le b j) ih

theorem countOwnFrom_own_succ (b : Board) (i : Nat) (h : i < b.width * b.height)
    (hown : ownAt b i = true) : countOwnFrom b i = countOwnFrom b (i + 1) + 1 := by
  rw [countOwnFrom_step b i h, hown]
  simp [Nat.add_comm]

theorem ownAt_none {b : Board} {i : Nat} (hp : b.pieces.getD i none = none) :
    ownAt b i = false := by
  unfold ownAt
  rw [hp]

theorem ownAt_some {b : Board} {i : Nat} {p : Piece} (hp : b.pieces.getD i none = some p) :
    ownAt b i = (p.white == b.whiteActive) := by
  unfold ownAt
  rw [hp]

theorem pieceGenAt_eq_some {b : Board} {env : Env} {i : Nat} {p : Piece}
    (hp : b.pieces.getD i none = some p) :
    pieceGenAt b env i = env.pieceGen p (coordsAt b i) := by
  unfold pieceGenAt
  rw [hp]

theorem pieceGenAt_some (b : Board) (env : Env) (i : Nat) (hf : EnvFresh env)
    (hown : ownAt b i = true) : ∃ l, pieceGenAt b env i = some l := by
  cases hp : b.pieces.getD i none with
  | none => rw [ownAt_none hp] at hown; cases hown
  | some p =>
    obtain ⟨l, hl⟩ := Option.isSome_iff_exists.mp (hf p (coordsAt b i))
    exact ⟨l, by rw [pieceGenAt_eq_some hp, hl]⟩

/-! ## Big-step characterisation of `BoardIter::next` -/

/-- One call to `next` with a sufficient depth budget never exhausts the
budget; it either yields the head of the state's residual stream (moving to
a state for the tail) or reports exhaustion exactly when the residual
stream is empty. -/
theorem nextD_spec (b : Board) (env : Env) (hf : EnvFresh env) :
    ∀ fuel st, BoardIter.Inv b st → fuelB b st ≤ fuel →
      ∃ r, BoardIter.nextD b env fuel st = some r ∧
        ((∃ m st', r = (some m, st') ∧ BoardIter.Inv b st' ∧
            stateStream b env st = m :: stateStream b env st') ∨
          (∃ st', r = (none, st') ∧ stateStream b env st = [])) := by
  intro fuel
  induction fuel with
  | zero =>
    intro st _ hle
    exfalso
    cases hcp : st.current_piece <;> simp [fuelB, hcp] at hle
  | succ fuel ih =>
    intro st hinv hle
    obtain ⟨idx, cp⟩ := st
    cases cp with
    | none =>
      by_cases hidx : idx ≥ b.width * b.height
      · refine ⟨(none, ⟨idx, none⟩), by simp [BoardIter.nextD, hidx],
          Or.inr ⟨⟨idx, none⟩, rfl, ?_⟩⟩
        simp only [stateStream]
        exact streamFrom_oob b env idx (by omega)
      · by_cases hj : scanSkip b idx < b.width * b.height
        · obtain ⟨l, hl⟩ := pieceGenAt_some b env _ hf (scanSkip_own b idx hj)
          have hinv' : BoardIter.Inv b
              ⟨scanSkip b idx, pieceGenAt b env (scanSkip b idx)⟩ := by
            intro l' _
            exact ⟨hj, scanSkip_own b idx hj⟩
          have hfuel' : fuelB b ⟨scanSkip b idx, pieceGenAt b env (scanSkip b idx)⟩ ≤ fuel := by
            simp only [fuelB, hl, countOwnFrom_scanSkip]
            simp only [fuelB] at hle
            omega
          obtain ⟨r, hr, hcase⟩ := ih _ hinv' hfuel'
          refine ⟨r, ?_, ?_⟩
          · simpa [BoardIter.nextD, hidx, hj] using hr
          · have hss : stateStream b env ⟨idx, none⟩ =
                stateStream b env ⟨scanSkip b idx, pieceGenAt b env (scanSkip b idx)⟩ := by
              simp only [stateStream, hl]
              rw [← streamFrom_scanSkip b env idx, streamFrom_step b env _ hj,
                scanSkip_own b idx hj, hl]
              simp
            rw [hss]
            exact hcase
        · have hfuel1 : 1 ≤ fuel := by
            simp only [fuelB] at hle
            omega
          obtain ⟨f, rfl⟩ : ∃ f, fuel = f + 1 := ⟨fuel - 1, by omega⟩
          refine ⟨(none, ⟨scanSkip b idx, none⟩), ?_, Or.inr ⟨_, rfl, ?_⟩⟩
          · simp [BoardIter.nextD, hidx, hj, Nat.le_of_not_lt hj]
          · simp only [stateStream]
            rw [← streamFrom_scanSkip b env idx]
            exact streamFrom_oob b env _ hj
    | some l =>
      by_cases hidx : idx ≥ b.width * b.height
      · exact absurd (hinv l rfl).1 (Nat.not_lt.mpr hidx)
      · cases l with
        | cons m rest =>
          refine ⟨(some m, ⟨idx, some rest⟩), by simp [BoardIter.nextD, hidx],
            Or.inl ⟨m, ⟨idx, some rest⟩, rfl, ?_, ?_⟩⟩
          · intro l' _
            exact hinv (m :: rest) rfl
          · simp [stateStream]
        | nil =>
          obtain ⟨hlt, hown⟩ := hinv [] rfl
          by_cases hj : scanSkip b (idx + 1) < b.width * b.height
          · obtain ⟨l', hl'⟩ := pieceGenAt_some b env _ hf (scanSkip_own b (idx + 1) hj)
            have hinv' : BoardIter.Inv b
                ⟨scanSkip b (idx + 1), pieceGenAt b env (scanSkip b (idx + 1))⟩ := by
              intro l'' _
              exact ⟨hj, scanSkip_own b (idx + 1) hj⟩
            have hcount : countOwnFrom b idx = countOwnFrom b (scanSkip b (idx + 1)) + 1 := by
              rw [countOwnFrom_scanSkip, countOwnFrom_own_succ b idx hlt hown]
            have hfuel' : fuelB b
                ⟨scanSkip b (idx + 1), pieceGenAt b env (scanSkip b (idx + 1))⟩ ≤ fuel := by
              simp only [fuelB, hl']
              simp only [fuelB] at hle
              omega
            obtain ⟨r, hr, hcase⟩ := ih _ hinv' hfuel'
            refine ⟨r, ?_, ?_⟩
            · simpa [BoardIter.nextD, hidx, hj] using hr
            · have hss : stateStream b env ⟨idx, some []⟩ =
                  stateStream b env
                    ⟨scanSkip b (idx + 1), pieceGenAt b env (scanSkip b (idx + 1))⟩ := by
                simp only [stateStream, hl']
                rw [List.nil_append, ← streamFrom_scanSkip b env (idx + 1),
                  streamFrom_step b env _ hj, scanSkip_own b (idx + 1) hj, hl']
                simp
              rw [hss]
              exact hcase
          · have hpos : 1 ≤ countOwnFrom b idx := by
              rw [countOwnFrom_own_succ b idx hlt hown]
              omega
            have hfuel1 : 1 ≤ fuel := by
              simp only [fuelB] at hle
              omega
            obtain ⟨f, rfl⟩ : ∃ f, fuel = f + 1 := ⟨fuel - 1, by omega⟩
            refine ⟨(none, ⟨scanSkip b (idx + 1), some []⟩), ?_, Or.inr ⟨_, rfl, ?_⟩⟩
            · simp [BoardIter.nextD, hidx, hj, Nat.le_of_not_lt hj]
            · simp only [stateStream]
              rw [List.nil_append, ← streamFrom_scanSkip b env (idx + 1)]
              exact streamFrom_oob b env _ hj

/-- Extra recursion-depth budget never changes the result of a call that
finished within its budget. -/
theorem nextD_mono (b : Board) (env : Env) :
    ∀ fuel fuel' st r, fuel ≤ fuel' → BoardIter.nextD b env fuel st = some r →
      BoardIter.nextD b env fuel' st = some r := by
  intro fuel
  induction fuel with
  | zero =>
    intro fuel' st r _ h
    simp [BoardIter.nextD] at h
  | succ fuel ih =>
    intro fuel' st r hle h
    obtain ⟨f', rfl⟩ : ∃ f', fuel' = f' + 1 := ⟨fuel' - 1, by omega⟩
    obtain ⟨idx, cp⟩ := st
    by_cases hidx : idx ≥ b.width * b.height
    · simp only [BoardIter.nextD, if_pos hidx] at h ⊢
      exact h
    · cases cp with
      | none =>
        by_cases hj : scanSkip b idx < b.width * b.height
        · simp only [BoardIter.nextD, if_neg hidx, if_pos hj] at h ⊢
          exact ih f' _ r (by omega) h
        · simp only [BoardIter.nextD, if_neg hidx, if_neg hj] at h ⊢
          exact ih f' _ r (by omega) h
      | some l =>
        cases l with
        | cons m rest =>
          simp only [BoardIter.nextD, if_neg hidx] at h ⊢
          exact h
        | nil =>
          by_cases hj : scanSkip b (idx + 1) < b.width * b.height
          · simp only [BoardIter.nextD, if_neg hidx, if_pos hj] at h ⊢
            exact ih f' _ r (by omega) h
          · simp only [BoardIter.nextD, if_neg hidx, if_neg hj] at h ⊢
            exact ih f' _ r (by omega) h

/-- Driving the iterator long enough produces exactly the residual stream. -/
theorem runFrom_spec (b : Board) (env : Env) (hf : EnvFresh env) :
    ∀ n st, BoardIter.Inv b st → (stateStream b env st).length ≤ n →
      runFrom b env n st = stateStream b env st := by
  intro n
  induction n with
  | zero =>
    intro st _ hlen
    have hnil : stateStream b env st = [] := List.eq_nil_of_length_eq_zero (by omega)
    simp [runFrom, hnil]
  | succ n ih =>
    intro st hinv hlen
    obtain ⟨r, hr, hcase⟩ := nextD_spec b env hf (fuelB b st) st hinv (Nat.le_refl _)
    have hnext : BoardIter.next b env st = r := by simp [BoardIter.next, hr]
    rcases hcase with ⟨m, st', rfl, hinv', hss⟩ | ⟨st', rfl, hss⟩
    · simp only [runFrom, hnext]
      rw [hss]
      rw [ih st' hinv' (by rw [hss] at hlen; simpa using hlen)]
    · simp only [runFrom, hnext]
      exact hss.symm

/-- The board generator, driven from the fresh state `generate_moves`
returns, emits exactly `streamFrom b env 0`. -/
theorem boardMoves_eq_streamFrom (b : Board) (env : Env) (hf : EnvFresh env) :
    boardMoves b env = streamFrom b env 0 := by
  have hinv0 : BoardIter.Inv b ⟨0, none⟩ := by
    intro l h
    cases h
  simpa [boardMoves, stateStream] using
    runFrom_spec b env hf (streamFrom b env 0).length ⟨0, none⟩ hinv0 (by simp [stateStream])

theorem streamFromAux_flatten (b : Board) (env : Env) :
    ∀ n i, n = b.width * b.height - i →
      streamFromAux b env n i =
        (((List.range' i n).filter (fun j => ownAt b j)).map
          (fun j => (pieceGenAt b env j).getD [])).flatten := by
  intro n
  induction n with
  | zero => intro i _; simp [streamFromAux]
  | succ n ih =>
    intro i hn
    have hi : i < b.width * b.height := by omega
    simp only [streamFromAux, if_pos hi, List.range'_succ]
    rw [ih (i + 1) (by omega)]
    by_cases hown : ownAt b i = true
    · simp [hown, List.filter_cons]
    · simp [hown, List.filter_cons]

/-- The whole generated sequence is the in-order concatenation of the piece
generator outputs of the own-color squares. -/
theorem streamFrom_flatten (b : Board) (env : Env) :
    streamFrom b env 0 =
      (((List.range (b.width * b.height)).filter (fun j => ownAt b j)).map
        (fun j => (pieceGenAt b env j).getD [])).flatten := by
  rw [streamFrom, streamFromAux_flatten b env _ 0 (by omega), Nat.sub_zero,
    ← List.range_eq_range']

theorem coordsAt_inj (b : Board) (i j : Nat) (h : coordsAt b i = coordsAt b j) : i = j := by
  have hx : i % b.width = j % b.width := congrArg Coords.x h
  have hy : i / b.width = j / b.width := congrArg Coords.y h
  calc i = b.width * (i / b.width) + i % b.width := (Nat.div_add_mod i b.width).symm
    _ = b.width * (j / b.width) + j % b.width := by rw [hx, hy]
    _ = j := Nat.div_add_mod j b.width

/-- Unpack membership in the piece list of an own-color square. -/
theorem mem_pieceListAt {b : Board} {env : Env} {i : Nat} {m : Move}
    (hown : ownAt b i = true) (hm : m ∈ (pieceGenAt b env i).getD []) :
    ∃ p l, b.pieces.getD i none = some p ∧ p.white = b.whiteActive ∧
      env.pieceGen p (coordsAt b i) = some l ∧ m ∈ l := by
  cases hp : b.pieces.getD i none with
  | none => rw [ownAt_none hp] at hown; cases hown
  | some p =>
    have hw : p.white = b.whiteActive := by
      rw [ownAt_some hp] at hown
      exact eq_of_beq hown
    cases hg : env.pieceGen p (coordsAt b i) with
    | none =>
      rw [pieceGenAt_eq_some hp, hg] at hm
      simp at hm
    | some l0 =>
      rw [pieceGenAt_eq_some hp, hg] at hm
      simp only [Option.getD_some] at hm
      exact ⟨p, l0, hp ▸ rfl, hw, hg, hm⟩

/-! ## Concrete sample values used by witnesses -/

def wPieceW : Piece := { kind := 0, white := true }

def wPieceB : Piece := { kind := 1, white := false }

def mvA : Move :=
  { fromPiece := wPieceW, fromCoords := { l := 0, t := 0, x := 0, y := 0 },
    toCoords := { l := 0, t := 0, x := 0, y := 1 } }

def mvB : Move :=
  { fromPiece := wPieceW, fromCoords := { l := 0, t := 0, x := 0, y := 0 },
    toCoords := { l := 0, t := 0, x := 1, y := 1 } }

/-- A 2x1 board: a white piece on square 0, a black piece on square 1,
white active. -/
def wBoard : Board :=
  { l := 0, t := 0, width := 2, height := 1,
    pieces := [some wPieceW, some wPieceB], whiteActive := true }

/-- A sample environment: every piece has exactly one candidate move, from
its own square to its own square. -/
def wEnv : Env :=
  { pieceGen := fun p c => some [{ fromPiece := p, fromCoords := c, toCoords := c }]
    pieceValidate := fun _ _ _ => true }

theorem wEnv_wf : EnvWF wEnv := by
  intro p c l h m hm
  obtain rfl : l = [{ fromPiece := p, fromCoords := c, toCoords := c }] := by
    simpa [wEnv] using h.symm
  simp only [List.mem_singleton] at hm
  subst hm
  exact ⟨rfl, rfl⟩

theorem wEnv_nodup : ∀ p c l, wEnv.pieceGen p c = some l → l.Nodup := by
  intro p c l h
  obtain rfl : l = [{ fromPiece := p, fromCoords := c, toCoords := c }] := by
    simpa [wEnv] using h.symm
  simp

/-! ## The claims -/

/-- Claim C4: every `CacheMoves` operation (`next`, `validate_move`, `get`)
only appends to the cache; `next` appends exactly the move it returns; after
any operation sequence on a fresh decorator during which `k` moves have been
yielded from the underlying sequence, the cache is exactly those `k` moves
in order, and `get_cached i` returns the `i`-th of them for every `i < k`. -/
theorem cache_append_only_mirrors_order (seq : List Move) (ops : List CacheOp) :
    ((applyOps { iterator := seq, cache := [] } ops).cache
        = seq.take (applyOps { iterator := seq, cache := [] } ops).cache.length) ∧
    (∀ (c : CacheMoves (List Move)) (op : CacheOp),
        ∃ ys, (applyOp c op).cache = c.cache ++ ys) ∧
    (∀ c : CacheMoves (List Move), ((c.next).2).cache = c.cache ++ (c.next).1.toList) ∧
    (∀ i : Nat, i < (applyOps { iterator := seq, cache := [] } ops).cache.length →
        (applyOps { iterator := seq, cache := [] } ops).get_cached i = seq[i]?) := by
  refine ⟨(applyOps_take_drop seq ops).1, ?_, ?_, ?_⟩
  · intro c op
    obtain ⟨j, h1, _⟩ := applyOp_shift c op
    exact ⟨_, h1⟩
  · intro c
    cases h : c.iterator with
    | nil => simp [CacheMoves.next, h]
    | cons m rest => simp [CacheMoves.next, h]
  · intro i hi
    rw [get_cached_fst]
    conv_lhs => rw [(applyOps_take_drop seq ops).1]
    exact List.getElem?_take_of_lt hi

theorem cache_append_only_mirrors_order_witness :
    0 < (applyOps { iterator := [mvA, mvB], cache := [] } [CacheOp.step]).cache.length ∧
    (applyOps { iterator := [mvA, mvB], cache := [] } [CacheOp.step]).get_cached 0
      = [mvA, mvB][0]? :=
  ⟨by decide,
    (cache_append_only_mirrors_order [mvA, mvB] [CacheOp.step]).2.2.2 0 (by decide)⟩

/-- Claim C5: `validate_move_cached` consults only the cache (it holds
exactly for the cached moves and receives no iterator state change); on a
decorator reached from a fresh one it never accepts a move outside the
moves yielded so far (the cache-length-long prefix of the sequence); and it
can reject a move that the underlying sequence still contains. -/
theorem validate_move_cached_no_false_positives :
    (∀ (c : CacheMoves (List Move)) (mv : Move),
        c.validate_move_cached mv = true ↔ mv ∈ c.cache) ∧
    (∀ (seq : List Move) (ops : List CacheOp) (mv : Move),
        (applyOps { iterator := seq, cache := [] } ops).validate_move_cached mv = true →
          mv ∈ seq.take (applyOps { iterator := seq, cache := [] } ops).cache.length) ∧
    (∃ (c : CacheMoves (List Move)) (mv : Move),
        c.validate_move_cached mv = false ∧ mv ∈ c.iterator) := by
  refine ⟨validate_move_cached_iff, ?_, ?_⟩
  · intro seq ops mv h
    have hmem := (validate_move_cached_iff _ mv).1 h
    rwa [(applyOps_take_drop seq ops).1] at hmem
  · exact ⟨{ iterator := [mvA], cache := [] }, mvA, by decide, by decide⟩

theorem validate_move_cached_no_false_positives_witness :
    mvA ∈ [mvA, mvB].take
      (applyOps { iterator := [mvA, mvB], cache := [] } [CacheOp.step]).cache.length :=
  validate_move_cached_no_false_positives.2.1 [mvA, mvB] [CacheOp.step] mvA (by decide)

/-- Claim C6: `validate_move` succeeds exactly when the queried move occurs
somewhere in the full sequence (cached prefix plus remaining underlying
moves), and it only moves moves from the iterator into the cache (the full
sequence is preserved). -/
theorem validate_move_iff_in_full_sequence (c : CacheMoves (List Move)) (mv : Move) :
    ((c.validate_move mv).1 = true ↔ mv ∈ c.cache ++ c.iterator) ∧
    (c.validate_move mv).2.cache ++ (c.validate_move mv).2.iterator
      = c.cache ++ c.iterator :=
  ⟨validate_move_fst c mv, validate_move_full c mv⟩

/-- Claim C7: `get n` returns the `n`-th move of the full sequence (draining
as needed) and absence when `n` is out of range; `get_cached n` answers from
the cache alone; on a sequence of exactly two moves, `get 1` returns the
second move while caching both (the first is not re-derived), and `get 2`
returns absence. -/
theorem get_nth_or_absent (c : CacheMoves (List Move)) (n : Nat) :
    ((c.get n).1 = (c.cache ++ c.iterator)[n]?) ∧
    (c.get_cached n = c.cache[n]?) ∧
    (∀ m0 m1 : Move,
      (CacheMoves.get { iterator := [m0, m1], cache := [] } 1).1 = some m1 ∧
      ((CacheMoves.get { iterator := [m0, m1], cache := [] } 1).2).cache = [m0, m1] ∧
      (CacheMoves.get { iterator := [m0, m1], cache := [] } 2).1 = none) := by
  refine ⟨get_fst c n, get_cached_fst c n, ?_⟩
  intro m0 m1
  refine ⟨?_, ?_, ?_⟩ <;> simp [CacheMoves.get, CacheMoves.getLoop]

/-- Claim C9: `Board::generate_moves` always returns a sequence (the fresh
iterator state), so `CacheMoves::new` over a board producer always
succeeds. -/
theorem generate_moves_always_some (b : Board) (env : Env) :
    Board.generate_moves b env = some { index := 0, current_piece := none } ∧
    (CacheMoves.new (Board.generate_moves b env)).isSome :=
  ⟨rfl, rfl⟩

/-- Claim C1: for every well-formed board, game and overlay (piece-level
environment), the moves yielded by the board generator are exactly the union
of the piece generator outputs over the own-color squares: membership
coincides, the result has no duplicates (whenever each piece generator
output has none), and no yielded move originates from a piece of the
opposite color. -/
theorem board_moves_union_of_piece_moves (b : Board) (env : Env)
    (hlen : b.pieces.length = b.width * b.height)
    (hf : EnvFresh env) (hwf : EnvWF env)
    (hnd : ∀ p c l, env.pieceGen p c = some l → l.Nodup) :
    (∀ m : Move, m ∈ boardMoves b env ↔
      ∃ i, i < b.width * b.height ∧ ownAt b i = true ∧
        m ∈ (pieceGenAt b env i).getD []) ∧
    (boardMoves b env).Nodup ∧
    (∀ m ∈ boardMoves b env, m.fromPiece.white = b.whiteActive) := by
  rw [boardMoves_eq_streamFrom b env hf, streamFrom_flatten]
  refine ⟨?_, ?_, ?_⟩
  · intro m
    simp only [List.mem_flatten, List.mem_map, List.mem_filter, List.mem_range]
    constructor
    · rintro ⟨l0, ⟨i, ⟨hi, hown⟩, rfl⟩, hm⟩
      exact ⟨i, hi, hown, hm⟩
    · rintro ⟨i, hi, hown, hm⟩
      exact ⟨_, ⟨i, ⟨hi, hown⟩, rfl⟩, hm⟩
  · rw [List.nodup_flatten]
    constructor
    · intro l0 hl0
      simp only [List.mem_map, List.mem_filter, List.mem_range] at hl0
      obtain ⟨i, ⟨hi, hown⟩, rfl⟩ := hl0
      cases hp : b.pieces.getD i none with
      | none => rw [ownAt_none hp] at hown; cases hown
      | some p =>
        rw [pieceGenAt_eq_some hp]
        cases hg : env.pieceGen p (coordsAt b i) with
        | none => simp
        | some l1 => simpa using hnd p _ l1 hg
    · rw [List.pairwise_map]
      have hpw : ((List.range (b.width * b.height)).filter
          (fun j => ownAt b j)).Pairwise (· < ·) :=
        (List.pairwise_lt_range _).filter _
      refine List.Pairwise.imp_of_mem ?_ hpw
      intro i j hi hj hij m hmi hmj
      have howni : ownAt b i = true := (List.mem_filter.mp hi).2
      have hownj : ownAt b j = true := (List.mem_filter.mp hj).2
      obtain ⟨p, l1, _, _, hg1, hm1⟩ := mem_pieceListAt howni hmi
      obtain ⟨q, l2, _, _, hg2, hm2⟩ := mem_pieceListAt hownj hmj
      have h1 : m.fromCoords = coordsAt b i := (hwf p _ l1 hg1 m hm1).2
      have h2 : m.fromCoords = coordsAt b j := (hwf q _ l2 hg2 m hm2).2
      exact absurd (coordsAt_inj b i j (h1.symm.trans h2)) (Nat.ne_of_lt hij)
  · intro m hm
    simp only [List.mem_flatten, List.mem_map, List.mem_filter, List.mem_range] at hm
    obtain ⟨l0, ⟨i, ⟨_, hown⟩, rfl⟩, hmm⟩ := hm
    obtain ⟨p, l1, _, hw, hg, hm1⟩ := mem_pieceListAt hown hmm
    rw [(hwf p _ l1 hg m hm1).1, hw]

theorem board_moves_union_of_piece_moves_witness :
    (∀ m : Move, m ∈ boardMoves wBoard wEnv ↔
      ∃ i, i < wBoard.width * wBoard.height ∧ ownAt wBoard i = true ∧
        m ∈ (pieceGenAt wBoard wEnv i).getD []) ∧
    (boardMoves wBoard wEnv).Nodup ∧
    (∀ m ∈ boardMoves wBoard wEnv, m.fromPiece.white = wBoard.whiteActive) :=
  board_moves_union_of_piece_moves wBoard wEnv (by decide) (fun _ _ => rfl)
    wEnv_wf wEnv_nodup

/-- Claim C2: the board generator visits the occupied own-color squares in
strictly increasing square-index order, emitting for each such square the
output of a fresh piece generator sequence before moving to the next: the
yielded list is exactly the concatenation, over `List.range`, of the piece
generator outputs of the own-color squares. -/
theorem board_moves_in_square_order (b : Board) (env : Env)
    (hlen : b.pieces.length = b.width * b.height) (hf : EnvFresh env) :
    boardMoves b env =
      (((List.range (b.width * b.height)).filter (fun i => ownAt b i)).map
        (fun i => (pieceGenAt b env i).getD [])).flatten := by
  rw [boardMoves_eq_streamFrom b env hf, streamFrom_flatten]

theorem board_moves_in_square_order_witness :
    boardMoves wBoard wEnv =
      (((List.range (wBoard.width * wBoard.height)).filter (fun i => ownAt wBoard i)).map
        (fun i => (pieceGenAt wBoard wEnv i).getD [])).flatten :=
  board_moves_in_square_order wBoard wEnv (by decide) (fun _ _ => rfl)

/-- Claim C3: each call to `BoardIter::next` terminates within a recursion
depth of `2 * countOwnFrom b 0 + 2`, a budget that depends only on the
number of own-color pieces and not on the board's area or how many squares
are empty (the empty-square skip is a `while` loop, not recursion), and any
larger budget computes the same result. -/
theorem next_depth_bounded (b : Board) (env : Env) (st : BoardIter)
    (hf : EnvFresh env) (hinv : BoardIter.Inv b st) :
    (BoardIter.nextD b env (2 * countOwnFrom b 0 + 2) st).isSome ∧
    (∀ fuel, 2 * countOwnFrom b 0 + 2 ≤ fuel →
      BoardIter.nextD b env fuel st =
        BoardIter.nextD b env (2 * countOwnFrom b 0 + 2) st) := by
  have hb : fuelB b st ≤ 2 * countOwnFrom b 0 + 2 := by
    have hanti := countOwnFrom_antitone b 0 st.index (Nat.zero_le _)
    cases hcp : st.current_piece <;> simp only [fuelB, hcp] <;> omega
  obtain ⟨r, hr, _⟩ := nextD_spec b env hf _ st hinv hb
  constructor
  · rw [hr]
    rfl
  · intro fuel hfe
    rw [hr, nextD_mono b env _ fuel st r hfe hr]

theorem next_depth_bounded_witness :
    (BoardIter.nextD wBoard wEnv (2 * countOwnFrom wBoard 0 + 2)
      { index := 0, current_piece := none }).isSome ∧
    (∀ fuel, 2 * countOwnFrom wBoard 0 + 2 ≤ fuel →
      BoardIter.nextD wBoard wEnv fuel { index := 0, current_piece := none } =
        BoardIter.nextD wBoard wEnv (2 * countOwnFrom wBoard 0 + 2)
          { index := 0, current_piece := none }) :=
  next_depth_bounded wBoard wEnv { index := 0, current_piece := none }
    (fun _ _ => rfl) (fun _ h => Option.noConfusion h)

/-- Claim C8: `Board::validate_move` is `false` on a timeline or turn
mismatch and on an empty source square, and otherwise coincides with the
piece-level `validate_move` of the piece occupying the source square. -/
theorem board_validate_move_delegates (b : Board) (env : Env) (mv : Move) :
    ((b.l ≠ mv.fromCoords.l ∨ b.t ≠ mv.fromCoords.t) →
      Board.validate_move b env mv = false) ∧
    (b.l = mv.fromCoords.l → b.t = mv.fromCoords.t →
      b.get (mv.fromCoords.x, mv.fromCoords.y) = none →
      Board.validate_move b env mv = false) ∧
    (∀ p : Piece, b.l = mv.fromCoords.l → b.t = mv.fromCoords.t →
      b.get (mv.fromCoords.x, mv.fromCoords.y) = some p →
      Board.validate_move b env mv = env.pieceValidate p mv.fromCoords mv) := by
  refine ⟨?_, ?_, ?_⟩
  · intro h
    have hcond : ¬(b.l = mv.fromCoords.l ∧ b.t = mv.fromCoords.t) := by tauto
    simp [Board.validate_move, hcond]
  · intro h1 h2 hget
    simp [Board.validate_move, h1, h2, hget]
  · intro p h1 h2 hget
    simp [Board.validate_move, h1, h2, hget]

def wMove : Move :=
  { fromPiece := wPieceW, fromCoords := { l := 0, t := 0, x := 0, y := 0 },
    toCoords := { l := 0, t := 0, x := 1, y := 0 } }

def wMoveBadL : Move :=
  { fromPiece := wPieceW, fromCoords := { l := 1, t := 0, x := 0, y := 0 },
    toCoords := { l := 0, t := 0, x := 1, y := 0 } }

def wMoveEmpty : Move :=
  { fromPiece := wPieceW, fromCoords := { l := 0, t := 0, x := 0, y := 5 },
    toCoords := { l := 0, t := 0, x := 1, y := 0 } }

theorem board_validate_move_delegates_witness :
    Board.validate_move wBoard wEnv wMoveBadL = false ∧
    Board.validate_move wBoard wEnv wMoveEmpty = false ∧
    Board.validate_move wBoard wEnv wMove
      = wEnv.pieceValidate wPieceW wMove.fromCoords wMove :=
  ⟨(board_validate_move_delegates wBoard wEnv wMoveBadL).1 (by decide),
    (board_validate_move_delegates wBoard wEnv wMoveEmpty).2.1 (by decide) (by decide)
      (by decide),
    (board_validate_move_delegates wBoard wEnv wMove).2.2 wPieceW (by decide) (by decide)
      (by decide)⟩

/-- Claim C10: whenever the scan loop of `BoardIter::next` stops in bounds
(the `new_iter` case), the square it stops on holds a piece of the board's
active color; under the grid invariant `pieces.length = width * height` the
indexing is in bounds and the `piece().unwrap()` cannot panic: `pieceGenAt`
takes its `some` branch. -/
theorem new_iter_square_occupied_own (b : Board)
    (hlen : b.pieces.length = b.width * b.height) (i : Nat)
    (hj : scanSkip b i < b.width * b.height) :
    ∃ (h : scanSkip b i < b.pieces.length) (p : Piece),
      b.pieces.get ⟨scanSkip b i, h⟩ = some p ∧ p.white = b.whiteActive ∧
      ∀ env : Env, pieceGenAt b env (scanSkip b i)
        = env.pieceGen p (coordsAt b (scanSkip b i)) := by
  have hown := scanSkip_own b i hj
  have hlt : scanSkip b i < b.pieces.length := by omega
  cases hp : b.pieces.getD (scanSkip b i) none with
  | none => rw [ownAt_none hp] at hown; cases hown
  | some p =>
    have hw : p.white = b.whiteActive := by
      rw [ownAt_some hp] at hown
      exact eq_of_beq hown
    have hg : b.pieces.get ⟨scanSkip b i, hlt⟩ = some p := by
      have hq := hp
      rw [List.getD_eq_getElem?_getD, List.getElem?_eq_getElem hlt] at hq
      simpa using hq
    exact ⟨hlt, p, hg, hw, fun env => pieceGenAt_eq_some hp⟩

theorem new_iter_square_occupied_own_witness :
    ∃ (h : scanSkip wBoard 0 < wBoard.pieces.length) (p : Piece),
      wBoard.pieces.get ⟨scanSkip wBoard 0, h⟩ = some p ∧ p.white = wBoard.whiteActive ∧
      ∀ env : Env, pieceGenAt wBoard env (scanSkip wBoard 0)
        = env.pieceGen p (coordsAt wBoard (scanSkip wBoard 0)) :=
  new_iter_square_occupied_own wBoard (by decide) 0 (by decide)

end Chess5d
